import Mathlib

/-!
# Shallow embedding of the DemoGPTs provider/streaming/rate-limit core

This file embeds, in Lean 4, the parts of the repository that the verified
claims are about:

* `apps/api/middlewares/ratelimit.js` — the sliding-window rate limiter
  (`getClientIP`, `cleanupOldRequests`, `checkRateLimit`, `recordRequest`);
* the message-validation sub-routine `validateMessages` of the validation
  middleware;
* `GeminiProvider.formatMessages` and `AnthropicProvider.formatMessages`;
* the four streaming decoders `OpenAIProvider.processStream`,
  `AzureChatProvider.processStream`, `GeminiProvider.processStream`,
  `AnthropicProvider.processStream`;
* the provider classes' method surface and the configured-provider check of
  the chat handler (`apps/api/chat.js`).

Modelling conventions:

* JavaScript strings that undergo splitting/trimming/slicing are modelled as
  `List Char` (`JSString`).  `TextDecoder.decode(value, {stream:true})` makes
  the decoded text of a chunked byte stream concatenate to the decoded text of
  the whole stream (it holds back partial UTF-8 sequences), so stream chunks
  are modelled as already-decoded `List Char` values.
* `Date.now()` timestamps are modelled as `Int` (they are exact integers in
  JS's float range).
* `JSON.parse` followed by field navigation is a JS built-in, not repository
  code; each decoder is therefore parameterised by the parsing function for
  its vendor payload shape (`List Char → Option ⋯`), with `none` standing for
  a `JSON.parse` exception (caught by the decoder's `catch` block).
-/

set_option autoImplicit false

/-- JavaScript strings, as their sequence of characters. -/
abbrev JSString := List Char

/-- Coerce a Lean string literal to the `List Char` model of a JS string. -/
def jsStr (s : String) : JSString := s.toList

/-- JS `String.prototype.trim()`: strip leading and trailing whitespace. -/
def jsTrim (s : JSString) : JSString :=
  ((s.dropWhile Char.isWhitespace).reverse.dropWhile Char.isWhitespace).reverse

/-- Prepend a character onto the first segment of a split result (used when
the current character is not the separator).  Split results are never empty,
so the `[]` case is unreachable. -/
def consHead (c : Char) : List JSString → List JSString
  | [] => [[c]]
  | h :: t => (c :: h) :: t

/-- JS `String.prototype.split(sep)` for a one-character separator: the list
of (possibly empty) segments between occurrences of `sep`.  Always returns at
least one segment, exactly like the JS method. -/
def jsSplit (sep : Char) : JSString → List JSString
  | [] => [[]]
  | c :: cs =>
    if c = sep then [] :: jsSplit sep cs else consHead c (jsSplit sep cs)

theorem consHead_ne_nil (c : Char) (l : List JSString) : consHead c l ≠ [] := by
  cases l <;> simp [consHead]

theorem jsSplit_ne_nil (sep : Char) (s : JSString) : jsSplit sep s ≠ [] := by
  cases s with
  | nil => simp [jsSplit]
  | cons c cs =>
    simp only [jsSplit]
    by_cases hc : c = sep
    · simp [hc]
    · rw [if_neg hc]
      exact consHead_ne_nil c _

/-! ## Rate limiter (`apps/api/middlewares/ratelimit.js`) -/

/-- The in-memory `requestStore` `Map` of the rate limiter: client key →
array of request timestamps.  A JS `Map` has unique keys and preserves
insertion order; it is modelled as an association list. -/
abbrev RateStore := List (String × List Int)

/-- `requestStore.get(ip) || []`. -/
def storeGet (store : RateStore) (ip : String) : List Int :=
  ((store.find? (fun p => p.1 = ip)).map Prod.snd).getD []

/-- `requestStore.set(ip, v)`: replace the entry if the key exists (JS `Map`
semantics), otherwise append it. -/
def storeSet (store : RateStore) (ip : String) (v : List Int) : RateStore :=
  if store.any (fun p => p.1 = ip) then
    store.map (fun p => if p.1 = ip then (ip, v) else p)
  else
    store ++ [(ip, v)]

/-- Per-endpoint rate-limit configuration (`windowMs`, `maxRequests`). -/
structure RateConfig where
  windowMs : Int
  maxRequests : Nat
  deriving Repr, DecidableEq

/-- `DEFAULT_CONFIG.windowMs = 60 * 1000` (the window `recordRequest` passes
to its opportunistic `cleanupOldRequests` call). -/
def defaultWindowMs : Int := 60 * 1000

/-- The chat endpoint's limiter configuration (`apps/api/chat.js`:
`windowMs: 60000, maxRequests: 30`). -/
def chatRateConfig : RateConfig := { windowMs := 60000, maxRequests := 30 }

/-- The image endpoint's limiter configuration (`apps/api/image.js`:
`windowMs: 300000, maxRequests: 10`). -/
def imageRateConfig : RateConfig := { windowMs := 300000, maxRequests := 10 }

/-- The result record of `checkRateLimit`.  `resetTime` is
`Math.min(...recentRequests) + windowMs`; JS `Math.min()` of an empty list is
`Infinity`, modelled as `none` (`retryAfter` is derived from it and carries no
additional state).  -/
structure RateCheckResult where
  isLimited : Bool
  current : Nat
  limit : Nat
  remaining : Nat
  resetTime : Option Int
  deriving Repr, DecidableEq

/-- `checkRateLimit(ip, config)` at current time `now`: filter the key's
timestamps to those strictly newer than `now - windowMs` and compare the
count with `maxRequests`. -/
def checkRateLimit (store : RateStore) (now : Int) (ip : String)
    (config : RateConfig) : RateCheckResult :=
  let cutoff := now - config.windowMs
  let requests := storeGet store ip
  let recentRequests := requests.filter (fun t => t > cutoff)
  { isLimited := recentRequests.length ≥ config.maxRequests
    current := recentRequests.length
    limit := config.maxRequests
    remaining := config.maxRequests - recentRequests.length
    resetTime := (recentRequests.min?).map (fun oldest => oldest + config.windowMs) }

/-- `recordRequest(ip)` at current time `now`: append `now` to the key's
timestamp array.  (The 10%-probability `cleanupOldRequests` call it may also
perform is modelled separately as `recordRequestWithCleanup`.) -/
def recordRequest (store : RateStore) (now : Int) (ip : String) : RateStore :=
  storeSet store ip (storeGet store ip ++ [now])

/-- `cleanupOldRequests(windowMs)` at current time `now`: for every entry,
keep only the timestamps strictly newer than `now - windowMs`; delete entries
whose filtered array is empty. -/
def cleanupOldRequests (store : RateStore) (now : Int) (windowMs : Int) : RateStore :=
  store.filterMap (fun p =>
    let recentRequests := p.2.filter (fun t => t > now - windowMs)
    if recentRequests.length = 0 then none else some (p.1, recentRequests))

/-- `recordRequest` on the execution where `Math.random() < 0.1` holds, i.e.
the recording followed by `cleanupOldRequests(DEFAULT_CONFIG.windowMs)`. -/
def recordRequestWithCleanup (store : RateStore) (now : Int) (ip : String) : RateStore :=
  cleanupOldRequests (recordRequest store now ip) now defaultWindowMs

/-- The per-request headers `getClientIP` consults.  `none` models an absent
header; a present header carries its string value (possibly empty, which is
falsy in JS and falls through the `||` chain exactly like an absent one). -/
structure ClientHeaders where
  xForwardedFor : Option JSString
  xRealIp : Option JSString
  cfConnectingIp : Option JSString

/-- JS `a || b` on an optional string: a present non-empty string wins,
otherwise fall through (both `undefined` and `''` are falsy). -/
def jsOrString (a : Option JSString) (b : JSString) : JSString :=
  match a with
  | some s => if s = [] then b else s
  | none => b

/-- `getClientIP(event)`: first truthy header among `x-forwarded-for`,
`x-real-ip`, `cf-connecting-ip`, defaulting to `'unknown'`; then
`ip.split(',')[0].trim()`. -/
def getClientIP (h : ClientHeaders) : JSString :=
  let ip := jsOrString h.xForwardedFor
    (jsOrString h.xRealIp (jsOrString h.cfConnectingIp (jsStr "unknown")))
  jsTrim ((jsSplit ',' ip).headD [])


/-! ### Supporting lemmas for the rate limiter -/

theorem storeGet_nil (ip : String) : storeGet [] ip = [] := rfl

theorem storeGet_cons (p : String × List Int) (s : RateStore) (ip : String) :
    storeGet (p :: s) ip = if p.1 = ip then p.2 else storeGet s ip := by
  by_cases h : p.1 = ip <;> simp [storeGet, List.find?_cons, h]

theorem storeGet_append_not_mem (s t : RateStore) (ip : String)
    (h : ∀ p ∈ s, p.1 ≠ ip) : storeGet (s ++ t) ip = storeGet t ip := by
  induction s with
  | nil => simp
  | cons p rest ih =>
    rw [List.cons_append, storeGet_cons, if_neg (h p (by simp))]
    exact ih (fun q hq => h q (by simp [hq]))

theorem storeGet_storeSet_self (store : RateStore) (ip : String) (v : List Int) :
    storeGet (storeSet store ip v) ip = v := by
  unfold storeSet
  by_cases h : store.any (fun p => p.1 = ip)
  · rw [if_pos h]
    induction store with
    | nil => simp at h
    | cons p rest ih =>
      rw [List.any_cons, Bool.or_eq_true, decide_eq_true_eq] at h
      by_cases hp : p.1 = ip
      · rw [List.map_cons, if_pos hp, storeGet_cons]
        simp
      · have h' : rest.any (fun p => p.1 = ip) := by
          rcases h with h | h
          · exact absurd h hp
          · exact h
        rw [List.map_cons, if_neg hp, storeGet_cons, if_neg hp]
        exact ih h'
  · rw [if_neg h]
    have hnone : ∀ p ∈ store, p.1 ≠ ip := by
      intro p hp hc
      exact h (List.any_eq_true.mpr ⟨p, hp, by simp [hc]⟩)
    rw [storeGet_append_not_mem _ _ _ hnone, storeGet_cons]
    simp

theorem storeGet_recordRequest_self (store : RateStore) (now : Int) (ip : String) :
    storeGet (recordRequest store now ip) ip = storeGet store ip ++ [now] :=
  storeGet_storeSet_self store ip _

/-- Folding `recordRequest` for a key appends the recorded timestamps to that
key's array. -/
theorem storeGet_foldl_recordRequest (ts : List Int) (store : RateStore) (ip : String) :
    storeGet (ts.foldl (fun st u => recordRequest st u ip) store) ip
      = storeGet store ip ++ ts := by
  induction ts generalizing store with
  | nil => simp
  | cons t rest ih =>
    rw [List.foldl_cons, ih, storeGet_recordRequest_self, List.append_assoc]
    rfl

/-- Keys surviving `cleanupOldRequests` were keys of the original store. -/
theorem mem_keys_cleanup (store : RateStore) (now windowMs : Int) (k : String)
    (h : k ∈ (cleanupOldRequests store now windowMs).map Prod.fst) :
    k ∈ store.map Prod.fst := by
  unfold cleanupOldRequests at h
  simp only [List.map_filterMap, List.mem_filterMap] at h
  obtain ⟨p, hp, hk⟩ := h
  simp only [Option.map] at hk
  by_cases hlen : (p.2.filter (fun t => t > now - windowMs)).length = 0
  · simp [hlen] at hk
  · simp only [if_neg hlen] at hk
    simp only [Option.map_some, Option.some.injEq] at hk
    exact List.mem_map.mpr ⟨p, hp, hk⟩

theorem storeGet_eq_nil_of_not_mem_keys (store : RateStore) (ip : String)
    (h : ip ∉ store.map Prod.fst) : storeGet store ip = [] := by
  induction store with
  | nil => rfl
  | cons p rest ih =>
    rw [storeGet_cons, if_neg (by simp at h; exact fun e => h.1 e.symm |>.elim)]
    · exact ih (by simp at h ⊢; exact h.2)

/-- On stores with pairwise-distinct keys (the JS `Map` invariant),
`cleanupOldRequests` acts on each key's array as the window filter. -/
theorem storeGet_cleanup (store : RateStore) (now windowMs : Int) (ip : String)
    (hnd : (store.map Prod.fst).Nodup) :
    storeGet (cleanupOldRequests store now windowMs) ip
      = (storeGet store ip).filter (fun t => t > now - windowMs) := by
  induction store with
  | nil => rfl
  | cons p rest ih =>
    simp only [List.map_cons, List.nodup_cons] at hnd
    obtain ⟨hp_not, hnd'⟩ := hnd
    unfold cleanupOldRequests
    rw [List.filterMap_cons]
    simp only []
    by_cases hlen : (p.2.filter (fun t => t > now - windowMs)).length = 0
    · rw [if_pos hlen]
      rw [storeGet_cons]
      by_cases hip : p.1 = ip
      · rw [if_pos hip]
        rw [List.length_eq_zero] at hlen
        have : ip ∉ (cleanupOldRequests rest now windowMs).map Prod.fst := by
          intro hmem
          exact hp_not (hip ▸ mem_keys_cleanup rest now windowMs ip hmem)
        rw [show (rest.filterMap fun p =>
            if (p.2.filter (fun t => t > now - windowMs)).length = 0 then none
            else some (p.1, p.2.filter (fun t => t > now - windowMs))) =
          cleanupOldRequests rest now windowMs from rfl]
        rw [storeGet_eq_nil_of_not_mem_keys _ _ this, hlen]
      · rw [if_neg hip]
        exact ih hnd'
    · rw [if_neg hlen, storeGet_cons, storeGet_cons]
      by_cases hip : p.1 = ip
      · rw [if_pos hip, if_pos hip]
      · rw [if_neg hip, if_neg hip]
        exact ih hnd'

/-- Filtering with a newer cutoff subsumes an older one. -/
theorem filter_cutoff_subsume (l : List Int) (a b : Int) (h : a ≤ b) :
    (l.filter (fun t => t > a)).filter (fun t => t > b)
      = l.filter (fun t => t > b) := by
  rw [List.filter_filter]
  apply List.filter_congr
  intro u _
  by_cases hu : u > b
  · simp [hu, lt_of_le_of_lt h hu]
  · simp [hu]

/-- `storeSet` never changes the key sequence when the key already exists,
and appends a fresh key otherwise; either way key distinctness survives. -/
theorem nodup_keys_storeSet (store : RateStore) (ip : String) (v : List Int)
    (hnd : (store.map Prod.fst).Nodup) :
    ((storeSet store ip v).map Prod.fst).Nodup := by
  unfold storeSet
  by_cases h : store.any (fun p => p.1 = ip)
  · rw [if_pos h]
    have : (store.map (fun p => if p.1 = ip then (ip, v) else p)).map Prod.fst
        = store.map Prod.fst := by
      rw [List.map_map]
      apply List.map_congr_left
      intro p _
      by_cases hp : p.1 = ip <;> simp [hp]
    rw [this]; exact hnd
  · rw [if_neg h]
    rw [List.map_append]
    simp only [List.map_cons, List.map_nil]
    rw [List.nodup_append]
    refine ⟨hnd, by simp, ?_⟩
    intro k hk
    simp only [List.mem_singleton]
    intro hke
    subst hke
    obtain ⟨p, hp, hpk⟩ := List.mem_map.mp hk
    exact h (List.any_eq_true.mpr ⟨p, hp, by simp [hpk]⟩)

theorem nodup_keys_recordRequest (store : RateStore) (now : Int) (ip : String)
    (hnd : (store.map Prod.fst).Nodup) :
    ((recordRequest store now ip).map Prod.fst).Nodup :=
  nodup_keys_storeSet store ip _ hnd

/-! ### Claim theorems: rate limiter -/

/-- **C5.** For every client key and limiter configuration `maxRequests = N`,
`windowMs = W` (with at least one request allowed): (1) after `N` calls have
been recorded, all at or after the first one's timestamp, a
`checkRateLimit` call within `W` of the first returns `isLimited = true`;
(2) a `checkRateLimit` call at a time such that no recorded timestamp for the
key is still inside the window (all are at least `W` older) returns
`isLimited = false`. -/
theorem checkRateLimit_sliding_window_law (cfg : RateConfig) (key : String) :
    (∀ (t₁ : Int) (rest : List Int) (t : Int),
        (t₁ :: rest).length = cfg.maxRequests →
        (∀ u ∈ rest, t₁ ≤ u) →
        t - t₁ < cfg.windowMs →
        (checkRateLimit ((t₁ :: rest).foldl (fun st u => recordRequest st u key) []) t
            key cfg).isLimited = true)
    ∧ (∀ (store : RateStore) (t : Int),
        1 ≤ cfg.maxRequests →
        (∀ u ∈ storeGet store key, u ≤ t - cfg.windowMs) →
        (checkRateLimit store t key cfg).isLimited = false) := by
  constructor
  · intro t₁ rest t hlen hge hwin
    have hget : storeGet ((t₁ :: rest).foldl (fun st u => recordRequest st u key) []) key
        = t₁ :: rest := by
      rw [storeGet_foldl_recordRequest]; rfl
    have hfilter : (t₁ :: rest).filter (fun u => u > t - cfg.windowMs) = t₁ :: rest := by
      apply List.filter_eq_self.mpr
      intro u hu
      simp only [decide_eq_true_eq]
      have h₁ : t₁ ≤ u := by
        rcases List.mem_cons.mp hu with h | h
        · exact h ▸ le_refl _
        · exact hge u h
      linarith
    simp only [checkRateLimit, hget, hfilter, hlen]
    simp
  · intro store t hN hold
    have hfilter : (storeGet store key).filter (fun u => u > t - cfg.windowMs) = [] := by
      apply List.filter_eq_nil_iff.mpr
      intro u hu
      simp only [decide_eq_true_eq, not_lt]
      exact hold u hu
    simp only [checkRateLimit, hfilter]
    simp only [List.length_nil, ge_iff_le, decide_eq_false_iff_not, not_le]
    omega

/-- Witness for the C5 theorem: with `maxRequests = 3`, `windowMs = 60000`,
three requests at 1000/1500/2000 make a check at 50000 limited, and a key
whose only timestamp is 60000 old at check time is not limited. -/
theorem checkRateLimit_sliding_window_law_witness :
    (checkRateLimit ([1000, 1500, 2000].foldl
        (fun st u => recordRequest st u "1.2.3.4") ([] : RateStore)) 50000
        "1.2.3.4" ⟨60000, 3⟩).isLimited = true
    ∧ (checkRateLimit [("1.2.3.4", [1000])] 70000 "1.2.3.4" ⟨60000, 3⟩).isLimited = false :=
  ⟨(checkRateLimit_sliding_window_law ⟨60000, 3⟩ "1.2.3.4").1 1000 [1500, 2000] 50000
      (by decide) (by decide) (by decide),
   (checkRateLimit_sliding_window_law ⟨60000, 3⟩ "1.2.3.4").2 [("1.2.3.4", [1000])] 70000
      (by decide) (by decide)⟩

/-- **C9 counterexample.** The opportunistic cleanup inside `recordRequest`
trims with the *default* 60-second window, which is *not* observationally
invisible under the image endpoint's 300-second configuration: a key with
nine requests 100 seconds old plus one fresh request is limited without the
cleanup but unlimited after it (the cleanup erased still-relevant history). -/
theorem cleanup_changes_image_check_counterexample :
    (checkRateLimit (recordRequest [("1.2.3.4", List.replicate 9 (0 : Int))]
        100000 "1.2.3.4") 100000 "1.2.3.4" imageRateConfig).isLimited = true
    ∧ (checkRateLimit (recordRequestWithCleanup [("1.2.3.4", List.replicate 9 (0 : Int))]
        100000 "1.2.3.4") 100000 "1.2.3.4" imageRateConfig).isLimited = false := by
  decide

/-- **C9 (amended).** The cleanup triggered inside `recordRequest` is
observationally invisible to any later `checkRateLimit` whose configured
window is at most the default 60-second cleanup window (e.g. the chat
endpoint's `windowMs = 60000`); for larger windows such as the image
endpoint's 300-second one it can change the decision (see the
counterexample). -/
theorem cleanup_invisible_within_default_window (store : RateStore) (t₀ t : Int)
    (ipRec key : String) (cfg : RateConfig)
    (hnd : (store.map Prod.fst).Nodup)
    (ht : t₀ ≤ t) (hw : cfg.windowMs ≤ defaultWindowMs) :
    checkRateLimit (recordRequestWithCleanup store t₀ ipRec) t key cfg
      = checkRateLimit (recordRequest store t₀ ipRec) t key cfg := by
  unfold recordRequestWithCleanup
  have hnd' := nodup_keys_recordRequest store t₀ ipRec hnd
  simp only [checkRateLimit]
  rw [storeGet_cleanup _ _ _ _ hnd']
  rw [filter_cutoff_subsume _ _ _ (by linarith)]

/-- Witness for the amended C9 theorem at a concrete store and the chat
configuration. -/
theorem cleanup_invisible_within_default_window_witness :
    checkRateLimit (recordRequestWithCleanup [("a", [(5 : Int)])] 10 "a") 20 "a" chatRateConfig
      = checkRateLimit (recordRequest [("a", [(5 : Int)])] 10 "a") 20 "a" chatRateConfig :=
  cleanup_invisible_within_default_window [("a", [5])] 10 20 "a" "a" chatRateConfig
    (by decide) (by decide) (by decide)

/-- **C10 counterexample.** A request whose `x-forwarded-for` header is
present but empty does not get the first comma-separated entry of that header
as its key (which would be the empty string): the empty string is falsy in
JS, so `getClientIP` falls through to `x-real-ip`. -/
theorem getClientIP_empty_forwarded_counterexample :
    getClientIP ⟨some (jsStr ""), some (jsStr "9.9.9.9"), none⟩ = jsStr "9.9.9.9"
    ∧ getClientIP ⟨some (jsStr ""), some (jsStr "9.9.9.9"), none⟩
        ≠ jsTrim ((jsSplit ',' (jsStr "")).headD []) := by
  decide

/-- **C10 (amended).** When none of `x-forwarded-for`, `x-real-ip`,
`cf-connecting-ip` is present, `getClientIP` returns the constant
`"unknown"` (one shared quota key for all such clients); when
`x-forwarded-for` is present *and non-empty*, the key is its first
comma-separated entry with surrounding whitespace trimmed. -/
theorem getClientIP_key_derivation (h : ClientHeaders) :
    (h.xForwardedFor = none → h.xRealIp = none → h.cfConnectingIp = none →
      getClientIP h = jsStr "unknown")
    ∧ (∀ s, h.xForwardedFor = some s → s ≠ [] →
      getClientIP h = jsTrim ((jsSplit ',' s).headD [])) := by
  obtain ⟨f, r, c⟩ := h
  constructor
  · rintro rfl rfl rfl
    decide
  · rintro s rfl hs
    simp only [getClientIP, jsOrString]
    rw [if_neg hs]

/-- Witness for the C10 theorem: no headers give key `"unknown"`; a
forwarded-for list gives its trimmed first entry. -/
theorem getClientIP_key_derivation_witness :
    getClientIP ⟨none, none, none⟩ = jsStr "unknown"
    ∧ getClientIP ⟨some (jsStr " 1.2.3.4 ,5.6.7.8"), none, none⟩
        = jsTrim ((jsSplit ',' (jsStr " 1.2.3.4 ,5.6.7.8")).headD []) :=
  ⟨(getClientIP_key_derivation ⟨none, none, none⟩).1 rfl rfl rfl,
   (getClientIP_key_derivation ⟨some (jsStr " 1.2.3.4 ,5.6.7.8"), none, none⟩).2 _ rfl
      (by decide)⟩


/-! ## Message validation (`validateMessages` of the validation middleware) -/

/-- A field of a message object as the validator inspects it: absent
(`undefined`), a string, or some defined non-string value.  A non-string
value is rejected either by the truthiness check (when falsy) or by the
`typeof` check (when truthy); both are the same rejection, so non-string
values need no finer distinction. -/
inductive JsField where
  | missing
  | str (s : JSString)
  | nonString
  deriving Repr, DecidableEq

/-- A `messages` array element that passed the `!message || typeof message
!== 'object'` guard, with the two fields the validator reads. -/
structure MsgObject where
  role : JsField
  content : JsField
  deriving Repr, DecidableEq

/-- An element of the `validatedMessages` array pushed by the validator:
`{ role: message.role, content: message.content.trim() }`. -/
structure ValidatedMessage where
  role : JSString
  content : JSString
  deriving Repr, DecidableEq

/-- `const validRoles = ['system', 'user', 'assistant']`. -/
def validRoles : List JSString := [jsStr "system", jsStr "user", jsStr "assistant"]

/-- The body of `validateMessages`' loop for one element: the checks in
source order (object guard, role truthy + string, role in `validRoles`,
content truthy + string, content length ≤ 10000), then the pushed record.
An input of `none` models an entry failing the object guard.  JS string
`.length` counts UTF-16 units; the model counts characters, which agrees on
the Unicode BMP. -/
def validateOneMessage : Option MsgObject → Option ValidatedMessage
  | none => none
  | some message =>
    match message.role with
    | .str r =>
      if r = [] then none
      else if r ∈ validRoles then
        match message.content with
        | .str c =>
          if c = [] then none
          else if c.length > 10000 then none
          else some ⟨r, jsTrim c⟩
        | _ => none
      else none
    | _ => none

/-- `validateMessages(messages)`: validate each element in order, returning
on the first failure.  `some validatedMessages` models `isValid: true`;
`none` models `isValid: false` (the claim concerns only accepted arrays, so
the per-index error strings are not modelled). -/
def validateMessages : List (Option MsgObject) → Option (List ValidatedMessage)
  | [] => some []
  | e :: rest =>
    match validateOneMessage e with
    | some v =>
      match validateMessages rest with
      | some out => some (v :: out)
      | none => none
    | none => none

/-- Every message accepted by the loop body has a valid role and content that
is the trim of an originally non-empty, length-bounded string. -/
theorem validateOneMessage_sound (e : Option MsgObject) (m : ValidatedMessage)
    (h : validateOneMessage e = some m) :
    m.role ∈ validRoles ∧ ∃ c : JSString, c ≠ [] ∧ c.length ≤ 10000 ∧ m.content = jsTrim c := by
  cases e with
  | none => simp [validateOneMessage] at h
  | some message =>
    simp only [validateOneMessage] at h
    split at h
    next r heqr =>
      split at h
      next => simp at h
      next hre =>
        split at h
        next hrv =>
          split at h
          next c heqc =>
            split at h
            next => simp at h
            next hce =>
              split at h
              next => simp at h
              next hcl =>
                obtain rfl : (⟨r, jsTrim c⟩ : ValidatedMessage) = m :=
                  Option.some.injEq _ _ ▸ h
                exact ⟨hrv, c, hce, by omega, rfl⟩
          next _ => simp at h
        next hrv => simp at h
    next _ _ => simp at h

/-! ### Claim theorems: message validation -/

/-- **C7 counterexample.** The validator's non-emptiness check
(`!message.content`) runs on the *untrimmed* content, so a whitespace-only
message is accepted (`isValid = true`) and stored with empty trimmed
content — the validator does admit a message whose trimmed content is
empty. -/
theorem validateMessages_admits_whitespace_counterexample :
    validateMessages [some ⟨.str (jsStr "user"), .str (jsStr " ")⟩]
      = some [⟨jsStr "user", []⟩] := by
  decide

/-- **C7 (amended).** For every messages array that `validateMessages`
accepts, every message in the returned validated array has role in
`{system, user, assistant}` and content that is the trim of an originally
non-empty string of at most 10,000 characters; the trimmed content itself
can be empty (exactly when the original content was whitespace-only). -/
theorem validateMessages_accepted_invariant :
    ∀ (msgs : List (Option MsgObject)) (out : List ValidatedMessage),
      validateMessages msgs = some out →
      ∀ m ∈ out, m.role ∈ validRoles ∧
        ∃ c : JSString, c ≠ [] ∧ c.length ≤ 10000 ∧ m.content = jsTrim c := by
  intro msgs
  induction msgs with
  | nil =>
    intro out h m hm
    simp only [validateMessages, Option.some.injEq] at h
    subst h
    simp at hm
  | cons e rest ih =>
    intro out h m hm
    simp only [validateMessages] at h
    cases hv : validateOneMessage e with
    | none => rw [hv] at h; simp at h
    | some v =>
      rw [hv] at h
      cases hrec : validateMessages rest with
      | none => rw [hrec] at h; simp at h
      | some out' =>
        rw [hrec] at h
        simp only [Option.some.injEq] at h
        subst h
        rcases List.mem_cons.mp hm with hm | hm
        · subst hm
          exact validateOneMessage_sound e m hv
        · exact ih out' hrec m hm

/-- Witness for the amended C7 theorem on a concrete accepted array. -/
theorem validateMessages_accepted_invariant_witness :
    jsStr "user" ∈ validRoles ∧
      ∃ c : JSString, c ≠ [] ∧ c.length ≤ 10000
        ∧ (⟨jsStr "user", jsStr "hi"⟩ : ValidatedMessage).content = jsTrim c :=
  validateMessages_accepted_invariant
    [some ⟨.str (jsStr "user"), .str (jsStr "hi")⟩]
    [⟨jsStr "user", jsStr "hi"⟩] (by decide)
    ⟨jsStr "user", jsStr "hi"⟩ (by decide)

/-! ## Provider message formatting (`GeminiProvider.formatMessages`,
`AnthropicProvider.formatMessages`) -/

/-- A chat message as the providers receive it from the UI/handler:
`{role, content}` plus the UI's `isError` flag that both formatters filter
on. -/
structure ChatMessage where
  role : String
  content : JSString
  isError : Bool
  deriving Repr, DecidableEq

/-- A plain `{role, content}` pair as pushed into a vendor request body. -/
structure RoleContent where
  role : String
  content : JSString
  deriving Repr, DecidableEq

structure GeminiPart where
  text : JSString
  deriving Repr, DecidableEq

/-- An element of Gemini's `contents` array: `{role, parts: [{text}]}`. -/
structure GeminiContent where
  role : String
  parts : List GeminiPart
  deriving Repr, DecidableEq

namespace GeminiProvider

/-- The body of `GeminiProvider.formatMessages`' loop for one message:
skip `isError` messages and `system` messages, rename `assistant` to
`model`, wrap the content in `parts: [{text}]`. -/
def mapMessage (message : ChatMessage) : Option GeminiContent :=
  if message.isError then none
  else if message.role = "system" then none
  else some { role := if message.role = "assistant" then "model" else message.role,
              parts := [{ text := message.content }] }

/-- The `contents` array built by the loop. -/
def contentsOf (messages : List ChatMessage) : List GeminiContent :=
  messages.filterMap mapMessage

/-- `GeminiProvider.formatMessages(messages)`: build `contents`, then — if
the array had a `system` message (the first one, via `messages.find`) and
the first content entry has role `user` — prefix
`` `${systemMessage.content}\n\nUsuario: ${originalText}` `` onto that
entry's first part text.  (Every constructed entry has exactly one part, so
the `parts[0]` access always hits the singleton; the `[]` branch below is
unreachable.) -/
def formatMessages (messages : List ChatMessage) : List GeminiContent :=
  let contents := contentsOf messages
  match messages.find? (fun m => m.role = "system") with
  | some systemMessage =>
    match contents with
    | first :: restContents =>
      if first.role = "user" then
        { first with parts :=
            match first.parts with
            | p :: ps =>
              { text := systemMessage.content ++ jsStr "\n\nUsuario: " ++ p.text } :: ps
            | [] => [] } :: restContents
      else first :: restContents
    | [] => []
  | none => contents

/-- The system-folding step changes only part texts, never roles. -/
theorem formatMessages_map_role (messages : List ChatMessage) :
    (formatMessages messages).map GeminiContent.role
      = (contentsOf messages).map GeminiContent.role := by
  unfold formatMessages
  cases hf : messages.find? (fun m => m.role = "system") with
  | none => rfl
  | some sys =>
    cases hc : contentsOf messages with
    | nil => rfl
    | cons first rest =>
      by_cases hr : first.role = "user"
      · simp [hr]
      · simp [hr]

/-- Entries produced by the loop body never carry role `system` or
`assistant`. -/
theorem mapMessage_role_ne (message : ChatMessage) (c : GeminiContent)
    (h : mapMessage message = some c) :
    c.role ≠ "system" ∧ c.role ≠ "assistant" := by
  unfold mapMessage at h
  by_cases he : message.isError
  · simp [he] at h
  · by_cases hs : message.role = "system"
    · simp [he, hs] at h
    · simp only [he, if_false, hs, if_neg, Bool.false_eq_true, Option.some.injEq] at h
      subst h
      by_cases ha : message.role = "assistant" <;> simp [ha, hs]

/-- The output roles of the loop are exactly the roles of the kept (non-error,
non-system) messages, each renamed by `assistant → model`: every assistant
message survives, in order, as a `model` entry. -/
theorem contentsOf_map_role (messages : List ChatMessage) :
    (contentsOf messages).map GeminiContent.role
      = (messages.filter
          (fun m => !m.isError && !(decide (m.role = "system")))).map
          (fun m => if m.role = "assistant" then "model" else m.role) := by
  unfold contentsOf
  induction messages with
  | nil => rfl
  | cons m rest ih =>
    by_cases he : m.isError
    · have hm : mapMessage m = none := by simp [mapMessage, he]
      have h1 : (!m.isError && !(decide (m.role = "system"))) = false := by simp [he]
      have hf : (m :: rest).filter (fun m => !m.isError && !(decide (m.role = "system")))
          = rest.filter (fun m => !m.isError && !(decide (m.role = "system"))) := by
        simp [List.filter_cons, h1]
      simp only [List.filterMap_cons, hm, hf]
      exact ih
    · by_cases hs : m.role = "system"
      · have hm : mapMessage m = none := by simp [mapMessage, he, hs]
        have h1 : (!m.isError && !(decide (m.role = "system"))) = false := by simp [hs]
        have hf : (m :: rest).filter (fun m => !m.isError && !(decide (m.role = "system")))
            = rest.filter (fun m => !m.isError && !(decide (m.role = "system"))) := by
          simp [List.filter_cons, h1]
        simp only [List.filterMap_cons, hm, hf]
        exact ih
      · have hm : mapMessage m
            = some { role := if m.role = "assistant" then "model" else m.role,
                     parts := [{ text := m.content }] } := by
          simp [mapMessage, he, hs]
        have h1 : (!m.isError && !(decide (m.role = "system"))) = true := by
          simp [he, hs]
        have hf : (m :: rest).filter (fun m => !m.isError && !(decide (m.role = "system")))
            = m :: rest.filter (fun m => !m.isError && !(decide (m.role = "system"))) := by
          simp [List.filter_cons, h1]
        simp only [List.filterMap_cons, hm, hf, List.map_cons]
        rw [ih]

end GeminiProvider

/-! ### Claim theorem: Gemini role renaming + system folding -/

/-- **C3.** For every messages array, the roles of
`GeminiProvider.formatMessages`' output are exactly the roles of the kept
(non-error, non-system) messages in order, each renamed by
`assistant → model` — so every `assistant` message survives as a `model`
entry and none is dropped; consequently no output entry has role `system`
or `assistant`; and for `[{role:"system", content:X}, {role:"user",
content:Y}]` it produces exactly one entry, with role `user`, whose single
part text is `X ++ "\n\nUsuario: " ++ Y` — containing `X` (as a prefix) and
`Y` (as a suffix): the folding law. -/
theorem gemini_formatMessages_folding_law :
    (∀ messages : List ChatMessage,
        (GeminiProvider.formatMessages messages).map GeminiContent.role
          = (messages.filter
              (fun m => !m.isError && !(decide (m.role = "system")))).map
              (fun m => if m.role = "assistant" then "model" else m.role))
    ∧ (∀ (messages : List ChatMessage)
        (c : GeminiContent), c ∈ GeminiProvider.formatMessages messages →
        c.role ≠ "system" ∧ c.role ≠ "assistant")
    ∧ (∀ X Y : JSString,
        GeminiProvider.formatMessages
            [⟨"system", X, false⟩, ⟨"user", Y, false⟩]
          = [{ role := "user",
               parts := [{ text := X ++ jsStr "\n\nUsuario: " ++ Y }] }]
        ∧ X <+: X ++ jsStr "\n\nUsuario: " ++ Y
        ∧ Y <:+ X ++ jsStr "\n\nUsuario: " ++ Y) := by
  refine ⟨?_, ?_, ?_⟩
  · intro messages
    rw [GeminiProvider.formatMessages_map_role, GeminiProvider.contentsOf_map_role]
  · intro messages c hc
    have hrole : c.role ∈ (GeminiProvider.formatMessages messages).map GeminiContent.role :=
      List.mem_map.mpr ⟨c, hc, rfl⟩
    rw [GeminiProvider.formatMessages_map_role] at hrole
    obtain ⟨c', hc', hc'r⟩ := List.mem_map.mp hrole
    obtain ⟨m, _, hm⟩ := List.mem_filterMap.mp hc'
    obtain ⟨h₁, h₂⟩ := GeminiProvider.mapMessage_role_ne m c' hm
    exact ⟨hc'r ▸ h₁, hc'r ▸ h₂⟩
  · intro X Y
    refine ⟨?_, ?_, ?_⟩
    · rfl
    · rw [List.append_assoc]
      exact List.prefix_append X _
    · exact List.suffix_append _ Y
/-- Witness for the C3 theorem at a concrete conversation: an assistant
message is preserved as a `model` entry, role absence holds, and the
folding law holds at `X`/`Y`. -/
theorem gemini_formatMessages_folding_law_witness :
    ((GeminiProvider.formatMessages
          [⟨"assistant", jsStr "hey", false⟩]).map GeminiContent.role
        = ([(⟨"assistant", jsStr "hey", false⟩ : ChatMessage)].filter
            (fun m => !m.isError && !(decide (m.role = "system")))).map
            (fun m => if m.role = "assistant" then "model" else m.role))
    ∧ ((⟨"model", [⟨jsStr "hey"⟩]⟩ : GeminiContent).role ≠ "system"
      ∧ (⟨"model", [⟨jsStr "hey"⟩]⟩ : GeminiContent).role ≠ "assistant")
    ∧ (GeminiProvider.formatMessages
          [⟨"system", jsStr "X", false⟩, ⟨"user", jsStr "Y", false⟩]
        = [{ role := "user", parts := [{ text := jsStr "X" ++ jsStr "\n\nUsuario: " ++ jsStr "Y" }] }]
      ∧ jsStr "X" <+: jsStr "X" ++ jsStr "\n\nUsuario: " ++ jsStr "Y"
      ∧ jsStr "Y" <:+ jsStr "X" ++ jsStr "\n\nUsuario: " ++ jsStr "Y") :=
  ⟨gemini_formatMessages_folding_law.1 [⟨"assistant", jsStr "hey", false⟩],
   gemini_formatMessages_folding_law.2.1
      [⟨"assistant", jsStr "hey", false⟩] ⟨"model", [⟨jsStr "hey"⟩]⟩ (by decide),
   gemini_formatMessages_folding_law.2.2 (jsStr "X") (jsStr "Y")⟩

namespace AnthropicProvider

/-- The return value of `AnthropicProvider.formatMessages`:
`{ systemPrompt: systemPrompt || undefined, conversationMessages }`
(`none` models `undefined`, produced when no system prompt was seen or the
seen one was the empty string). -/
structure AnthropicFormatted where
  systemPrompt : Option JSString
  conversationMessages : List RoleContent
  deriving Repr, DecidableEq

/-- The loop of `AnthropicProvider.formatMessages`, threading the mutable
`systemPrompt` variable: `isError` messages are skipped; each `system`
message *overwrites* `systemPrompt` with its content; every other message is
pushed as `{role, content}`. -/
def formatLoop : List ChatMessage → JSString → JSString × List RoleContent
  | [], systemPrompt => (systemPrompt, [])
  | message :: rest, systemPrompt =>
    if message.isError then formatLoop rest systemPrompt
    else if message.role = "system" then formatLoop rest message.content
    else
      let (s, tail) := formatLoop rest systemPrompt
      (s, ⟨message.role, message.content⟩ :: tail)

/-- `AnthropicProvider.formatMessages(messages)`: run the loop from
`systemPrompt = ''` and apply `systemPrompt || undefined`. -/
def formatMessages (messages : List ChatMessage) : AnthropicFormatted :=
  let (systemPrompt, conversationMessages) := formatLoop messages []
  { systemPrompt := if systemPrompt = [] then none else some systemPrompt
    conversationMessages := conversationMessages }

/-- Characterisation of the loop: the final `systemPrompt` is the content of
the *last* non-error system message (or the initial value), and the
conversation is the non-error, non-system messages in order. -/
theorem formatLoop_spec (messages : List ChatMessage) (sys : JSString) :
    formatLoop messages sys
      = ((match (messages.filter
            (fun m => !m.isError && decide (m.role = "system"))).getLast? with
          | none => sys
          | some m => m.content),
         (messages.filter
            (fun m => !m.isError && !(decide (m.role = "system")))).map
           (fun m => ⟨m.role, m.content⟩)) := by
  induction messages generalizing sys with
  | nil => rfl
  | cons message rest ih =>
    by_cases he : message.isError
    · have h1 : (!message.isError && decide (message.role = "system")) = false := by
        simp [he]
      have h2 : (!message.isError && !(decide (message.role = "system"))) = false := by
        simp [he]
      have hf1 : (message :: rest).filter (fun m => !m.isError && decide (m.role = "system"))
          = rest.filter (fun m => !m.isError && decide (m.role = "system")) := by
        simp [List.filter_cons, h1]
      have hf2 : (message :: rest).filter (fun m => !m.isError && !(decide (m.role = "system")))
          = rest.filter (fun m => !m.isError && !(decide (m.role = "system"))) := by
        simp [List.filter_cons, h2]
      simp only [formatLoop]
      rw [if_pos he, hf1, hf2, ih sys]
    · by_cases hs : message.role = "system"
      · have h1 : (!message.isError && decide (message.role = "system")) = true := by
          simp [he, hs]
        have h2 : (!message.isError && !(decide (message.role = "system"))) = false := by
          simp [hs]
        have hf1 : (message :: rest).filter (fun m => !m.isError && decide (m.role = "system"))
            = message :: rest.filter (fun m => !m.isError && decide (m.role = "system")) := by
          simp [List.filter_cons, h1]
        have hf2 : (message :: rest).filter (fun m => !m.isError && !(decide (m.role = "system")))
            = rest.filter (fun m => !m.isError && !(decide (m.role = "system"))) := by
          simp [List.filter_cons, h2]
        simp only [formatLoop]
        rw [if_neg he, if_pos hs, hf1, hf2, ih message.content]
        cases hl : (rest.filter (fun m => !m.isError && decide (m.role = "system"))) with
        | nil => simp
        | cons a l =>
          rw [List.getLast?_cons_cons]
          cases hgl : (a :: l).getLast? with
          | none =>
            have : (a :: l) ≠ [] := by simp
            rw [List.getLast?_eq_none_iff] at hgl
            exact absurd hgl this
          | some x => rfl
      · have h1 : (!message.isError && decide (message.role = "system")) = false := by
          simp [hs]
        have h2 : (!message.isError && !(decide (message.role = "system"))) = true := by
          simp [he, hs]
        have hf1 : (message :: rest).filter (fun m => !m.isError && decide (m.role = "system"))
            = rest.filter (fun m => !m.isError && decide (m.role = "system")) := by
          simp [List.filter_cons, h1]
        have hf2 : (message :: rest).filter (fun m => !m.isError && !(decide (m.role = "system")))
            = message :: rest.filter (fun m => !m.isError && !(decide (m.role = "system"))) := by
          simp [List.filter_cons, h2]
        simp only [formatLoop]
        rw [if_neg he, if_neg hs, hf1, hf2, ih sys]
        rfl

end AnthropicProvider

/-! ### Claim theorems: Anthropic system hoisting -/

/-- **C4 counterexample.** With two system messages, the hoisted system
field is the *last* one's content, not the first's: the loop overwrites
`systemPrompt` on every system message. -/
theorem anthropic_last_system_wins_counterexample :
    (AnthropicProvider.formatMessages
        [⟨"system", jsStr "A", false⟩, ⟨"system", jsStr "B", false⟩,
         ⟨"user", jsStr "Y", false⟩]).systemPrompt = some (jsStr "B")
    ∧ some (jsStr "B") ≠ some (jsStr "A") := by
  decide

/-- **C4 (amended).** `AnthropicProvider.formatMessages` hoists the *last*
non-error system message's content into the dedicated system field (omitted
— `undefined` — when there is none or its content is empty), and returns
exactly the non-error, non-system messages unchanged and in order; in
particular, for `[{role:"system", content:X}, {role:"user", content:Y}]`
with `X` non-empty, the system field equals `X` and the conversation list is
exactly `[{role:"user", content:Y}]`. -/
theorem anthropic_formatMessages_hoisting_law :
    (∀ messages : List ChatMessage,
        (AnthropicProvider.formatMessages messages).conversationMessages
          = (messages.filter
              (fun m => !m.isError && !(decide (m.role = "system")))).map
              (fun m => ⟨m.role, m.content⟩))
    ∧ (∀ messages : List ChatMessage,
        (AnthropicProvider.formatMessages messages).systemPrompt
          = match (messages.filter
              (fun m => !m.isError && decide (m.role = "system"))).getLast? with
            | none => none
            | some m => if m.content = [] then none else some m.content)
    ∧ (∀ X Y : JSString, X ≠ [] →
        AnthropicProvider.formatMessages [⟨"system", X, false⟩, ⟨"user", Y, false⟩]
          = ⟨some X, [⟨"user", Y⟩]⟩) := by
  refine ⟨?_, ?_, ?_⟩
  · intro messages
    simp only [AnthropicProvider.formatMessages]
    rw [AnthropicProvider.formatLoop_spec messages []]
  · intro messages
    simp only [AnthropicProvider.formatMessages]
    rw [AnthropicProvider.formatLoop_spec messages []]
    cases hgl : (messages.filter
        (fun m => !m.isError && decide (m.role = "system"))).getLast? with
    | none => simp
    | some m => rfl
  · intro X Y hX
    have h : AnthropicProvider.formatMessages [⟨"system", X, false⟩, ⟨"user", Y, false⟩]
        = ⟨if X = [] then none else some X, [⟨"user", Y⟩]⟩ := rfl
    rw [h, if_neg hX]

/-- Witness for the amended C4 theorem at a concrete conversation. -/
theorem anthropic_formatMessages_hoisting_law_witness :
    AnthropicProvider.formatMessages
        [⟨"system", jsStr "X", false⟩, ⟨"user", jsStr "Y", false⟩]
      = ⟨some (jsStr "X"), [⟨"user", jsStr "Y"⟩]⟩ :=
  anthropic_formatMessages_hoisting_law.2.2 (jsStr "X") (jsStr "Y") (by decide)

/-! ## Streaming decoders (`processStream` of the four providers)

All three decoder bodies share the same loop: append the decoded chunk to a
string buffer, split on `'\n'`, hold the last (possibly incomplete) segment
back as the new buffer, process each complete line, and `return` out of the
generator when a terminal line is seen.  They differ in the per-line
parsing, and in the end-of-input behaviour: Gemini's loop yields
`{done: true}` when the byte stream ends, the OpenAI/Azure/Anthropic loops
just `break` (emitting nothing).  The loop is defined once, parameterised by
the per-line step and that end-of-input flag. -/

/-- A normalized streaming chunk as yielded by the decoders: `{delta}` or
`{done: true}` (no decoder yields any other object shape). -/
inductive StreamEvent where
  | delta (text : JSString)
  | done
  deriving Repr, DecidableEq

/-- `done` is the only terminal event the decoders emit. -/
def StreamEvent.isTerminal : StreamEvent → Bool
  | .delta _ => false
  | .done => true

/-- Process a list of complete lines with the per-line step; the `Bool`
records whether the generator `return`ed (after which nothing further is
read or emitted). -/
def sseRunLines (step : JSString → List StreamEvent × Bool) :
    List JSString → List StreamEvent × Bool
  | [] => ([], false)
  | line :: rest =>
    if (step line).2 then ((step line).1, true)
    else ((step line).1 ++ (sseRunLines step rest).1, (sseRunLines step rest).2)

/-- The shared chunk loop: `buffer += decode(value); lines = buffer.split('\n');
buffer = lines.pop() || ''; for (line of lines) …`.  On end of input, Gemini
(`emitDoneAtEnd = true`) yields a final `{done: true}`; the others `break`,
discarding the buffer. -/
def sseChunkLoop (step : JSString → List StreamEvent × Bool)
    (emitDoneAtEnd : Bool) : JSString → List JSString → List StreamEvent
  | _buffer, [] => if emitDoneAtEnd then [.done] else []
  | buffer, value :: chunks =>
    if (sseRunLines step (jsSplit '\n' (buffer ++ value)).dropLast).2 then
      (sseRunLines step (jsSplit '\n' (buffer ++ value)).dropLast).1
    else
      (sseRunLines step (jsSplit '\n' (buffer ++ value)).dropLast).1
        ++ sseChunkLoop step emitDoneAtEnd
            ((jsSplit '\n' (buffer ++ value)).getLast?.getD []) chunks

namespace OpenAIProvider

/-- The per-line step of `OpenAIProvider.processStream`: only `data: ` lines
matter; payload `[DONE]` yields the terminal event and returns; otherwise
`parse` models `JSON.parse(data)` followed by
`parsed.choices[0]?.delta?.content` — `none` covers both a `JSON.parse`
exception (caught: `continue`) and an absent delta, and an extracted empty
string is falsy, so `if (delta)` suppresses the yield. -/
def lineStep (parse : JSString → Option JSString) (line : JSString) :
    List StreamEvent × Bool :=
  if (jsStr "data: ").isPrefixOf line then
    let data := jsTrim (line.drop 6)
    if data = jsStr "[DONE]" then ([.done], true)
    else
      match parse data with
      | some d => if d = [] then ([], false) else ([.delta d], false)
      | none => ([], false)
  else ([], false)

/-- `OpenAIProvider.processStream(stream)`: events produced from the
stream's decoded chunk list (no terminal is emitted when input ends without
`[DONE]` — the loop just breaks). -/
def processStream (parse : JSString → Option JSString)
    (chunks : List JSString) : List StreamEvent :=
  sseChunkLoop (lineStep parse) false [] chunks

end OpenAIProvider

namespace AzureChatProvider

/-- `AzureChatProvider.processStream` — its body is character-for-character
identical to `OpenAIProvider.processStream` (same `data: ` prefix, `[DONE]`
marker, `choices[0]?.delta?.content` extraction, same `break` at end of
input), so it is the same function of the same parse model. -/
def processStream (parse : JSString → Option JSString)
    (chunks : List JSString) : List StreamEvent :=
  OpenAIProvider.processStream parse chunks

end AzureChatProvider

namespace AnthropicProvider

/-- The result of `JSON.parse(data)` on an Anthropic `data: ` payload, as
far as the decoder's `switch (parsed.type)` inspects it. -/
inductive AnthropicParsed where
  /-- `type: 'content_block_delta'`, with `parsed.delta?.text` (`none` when
  absent). -/
  | contentBlockDelta (text : Option JSString)
  /-- `type: 'message_stop'`. -/
  | messageStop
  /-- `type: 'content_block_stop'`. -/
  | contentBlockStop
  /-- `type: 'error'`, with `parsed.error?.message`. -/
  | error (message : Option JSString)
  /-- any other `type` value (no switch case applies). -/
  | other
  deriving Repr, DecidableEq

/-- The per-line step of `AnthropicProvider.processStream`.  `event: ` lines
and non-`data: ` lines produce nothing.  NOTE the `error` case: the source
does `throw new Error(parsed.error?.message || …)` — but that `throw` sits
inside the same `try` whose `catch (e) { continue }` was written for
`JSON.parse` failures, so the exception is swallowed and the line is
skipped; decoding continues with the next line. -/
def lineStep (parse : JSString → Option AnthropicParsed) (line : JSString) :
    List StreamEvent × Bool :=
  if (jsStr "data: ").isPrefixOf line then
    let data := jsTrim (line.drop 6)
    if data = jsStr "[DONE]" then ([.done], true)
    else
      match parse data with
      | none => ([], false)
      | some (.contentBlockDelta (some t)) =>
        if t = [] then ([], false) else ([.delta t], false)
      | some (.contentBlockDelta none) => ([], false)
      | some .messageStop => ([.done], true)
      | some .contentBlockStop => ([], false)
      | some (.error _) => ([], false)
      | some .other => ([], false)
  else ([], false)

/-- `AnthropicProvider.processStream(stream)` (no terminal when input ends
without `message_stop`/`[DONE]`). -/
def processStream (parse : JSString → Option AnthropicParsed)
    (chunks : List JSString) : List StreamEvent :=
  sseChunkLoop (lineStep parse) false [] chunks

end AnthropicProvider

namespace GeminiProvider

/-- The result of `JSON.parse(trimmed)` on a Gemini stream line, as far as
the decoder inspects it: `candidates?.[0]?.content?.parts?.[0]?.text` and
the truthiness of `candidates?.[0]?.finishReason`. -/
structure GeminiParsed where
  text : Option JSString
  finishReason : Bool
  deriving Repr, DecidableEq

/-- The per-line step of `GeminiProvider.processStream`: skip blank lines;
on parse success yield the text if truthy, then — if `finishReason` is
truthy — yield the terminal event and return. -/
def lineStep (parse : JSString → Option GeminiParsed) (line : JSString) :
    List StreamEvent × Bool :=
  let trimmed := jsTrim line
  if trimmed = [] then ([], false)
  else
    match parse trimmed with
    | none => ([], false)
    | some p =>
      let contentEvents :=
        match p.text with
        | some t => if t = [] then [] else [StreamEvent.delta t]
        | none => []
      if p.finishReason then (contentEvents ++ [.done], true)
      else (contentEvents, false)

/-- `GeminiProvider.processStream(stream)`: unlike the other decoders, the
loop yields `{done: true}` when the input stream ends. -/
def processStream (parse : JSString → Option GeminiParsed)
    (chunks : List JSString) : List StreamEvent :=
  sseChunkLoop (lineStep parse) true [] chunks

end GeminiProvider

/-! ### Split/buffer algebra for the chunk loop -/

/-- No segment produced by `jsSplit` contains the separator. -/
theorem not_mem_of_mem_jsSplit (sep : Char) (s : JSString) (a : JSString)
    (ha : a ∈ jsSplit sep s) : sep ∉ a := by
  induction s generalizing a with
  | nil =>
    simp only [jsSplit, List.mem_singleton] at ha
    subst ha; simp
  | cons c cs ih =>
    simp only [jsSplit] at ha
    by_cases hc : c = sep
    · rw [if_pos hc] at ha
      rcases List.mem_cons.mp ha with rfl | ha
      · simp
      · exact ih a ha
    · rw [if_neg hc] at ha
      cases hsp : jsSplit sep cs with
      | nil => exact absurd hsp (jsSplit_ne_nil sep cs)
      | cons h t =>
        rw [hsp] at ha
        simp only [consHead] at ha
        rcases List.mem_cons.mp ha with rfl | ha
        · intro hmem
          rcases List.mem_cons.mp hmem with hew | hmem
          · exact hc hew.symm
          · exact ih h (hsp ▸ List.mem_cons_self h t) hmem
        · exact ih a (hsp ▸ List.mem_cons.mpr (Or.inr ha))

/-- Splitting a string that contains no separator yields that one segment. -/
theorem jsSplit_eq_singleton_of_not_mem (sep : Char) (a : JSString)
    (h : sep ∉ a) : jsSplit sep a = [a] := by
  induction a with
  | nil => rfl
  | cons c cs ih =>
    have hc : ¬ c = sep := by
      intro e; subst e; exact h (List.mem_cons_self c cs)
    have hcs : sep ∉ cs := fun hm => h (List.mem_cons.mpr (Or.inr hm))
    simp only [jsSplit, if_neg hc, ih hcs, consHead]

/-- Joining two split results across a concatenation boundary: the last
segment of the first merges with the first segment of the second. -/
def glueSplits : List JSString → List JSString → List JSString
  | [], ys => ys
  | x :: xs, ys =>
    match xs with
    | [] =>
      (match ys with
       | [] => [x]
       | y :: t => (x ++ y) :: t)
    | x' :: xs' => x :: glueSplits (x' :: xs') ys

theorem jsSplit_append (sep : Char) (x y : JSString) :
    jsSplit sep (x ++ y) = glueSplits (jsSplit sep x) (jsSplit sep y) := by
  induction x with
  | nil =>
    cases hy : jsSplit sep y with
    | nil => exact absurd hy (jsSplit_ne_nil sep y)
    | cons b u =>
      rw [List.nil_append, hy]
      rfl
  | cons c cs ih =>
    simp only [List.cons_append, jsSplit, List.append_eq]
    rw [ih]
    cases hcs : jsSplit sep cs with
    | nil => exact absurd hcs (jsSplit_ne_nil sep cs)
    | cons h t =>
      cases hy : jsSplit sep y with
      | nil => exact absurd hy (jsSplit_ne_nil sep y)
      | cons b u =>
        by_cases hc : c = sep
        · rw [if_pos hc, if_pos hc]
          cases t <;> rfl
        · rw [if_neg hc, if_neg hc]
          simp only [consHead]
          cases t <;> rfl

/-- `glueSplits` in closed form, for non-empty arguments. -/
theorem glueSplits_eq_append (xs ys : List JSString) (hxs : xs ≠ [])
    (hys : ys ≠ []) :
    glueSplits xs ys
      = xs.dropLast ++ ((xs.getLast hxs ++ ys.head hys) :: ys.tail) := by
  induction xs with
  | nil => exact absurd rfl hxs
  | cons x xs ih =>
    cases xs with
    | nil =>
      cases ys with
      | nil => exact absurd rfl hys
      | cons b u => rfl
    | cons x' xs' =>
      rw [show glueSplits (x :: x' :: xs') ys = x :: glueSplits (x' :: xs') ys
          from rfl,
        ih (by simp)]
      rfl

theorem getLast?_append_of_ne_nil (l l' : List JSString) (h : l' ≠ []) :
    (l ++ l').getLast? = l'.getLast? := by
  rw [List.getLast?_append]
  cases hl : l'.getLast? with
  | none => exact absurd (List.getLast?_eq_none_iff.mp hl) h
  | some x => rfl

/-- `sseRunLines` over concatenated line lists: once the first block stops,
the second is never reached; otherwise events concatenate. -/
theorem sseRunLines_append (step : JSString → List StreamEvent × Bool)
    (l₁ l₂ : List JSString) :
    sseRunLines step (l₁ ++ l₂)
      = if (sseRunLines step l₁).2 then sseRunLines step l₁
        else ((sseRunLines step l₁).1 ++ (sseRunLines step l₂).1,
              (sseRunLines step l₂).2) := by
  induction l₁ with
  | nil => simp [sseRunLines]
  | cons line rest ih =>
    simp only [List.cons_append, sseRunLines, List.append_eq]
    cases hs : (step line).2 with
    | true => simp
    | false =>
      simp only [Bool.false_eq_true, if_false]
      rw [ih]
      cases hr : (sseRunLines step rest).2 with
      | true => simp [hr]
      | false => simp [hr, List.append_assoc]

/-- The decisive robustness property of the buffer-and-hold-back-last-line
loop: merging two adjacent chunks into one never changes the emitted
events (for any per-line step and any split position). -/
theorem sseChunkLoop_merge (step : JSString → List StreamEvent × Bool)
    (emitEnd : Bool) (buffer c₁ c₂ : JSString) (chunks : List JSString) :
    sseChunkLoop step emitEnd buffer (c₁ :: c₂ :: chunks)
      = sseChunkLoop step emitEnd buffer ((c₁ ++ c₂) :: chunks) := by
  have hp1 : jsSplit '\n' (buffer ++ c₁) ≠ [] := jsSplit_ne_nil _ _
  have hbuf : (jsSplit '\n' (buffer ++ c₁)).getLast?.getD []
      = (jsSplit '\n' (buffer ++ c₁)).getLast hp1 := by
    rw [List.getLast?_eq_getLast _ hp1]; rfl
  have hnosep : '\n' ∉ (jsSplit '\n' (buffer ++ c₁)).getLast hp1 :=
    not_mem_of_mem_jsSplit _ _ _ (List.getLast_mem hp1)
  have hp2 : jsSplit '\n' ((jsSplit '\n' (buffer ++ c₁)).getLast hp1 ++ c₂) ≠ [] :=
    jsSplit_ne_nil _ _
  have hparts : jsSplit '\n' (buffer ++ (c₁ ++ c₂))
      = (jsSplit '\n' (buffer ++ c₁)).dropLast
        ++ jsSplit '\n' ((jsSplit '\n' (buffer ++ c₁)).getLast hp1 ++ c₂) := by
    rw [← List.append_assoc, jsSplit_append '\n' (buffer ++ c₁) c₂,
      jsSplit_append '\n' _ c₂, jsSplit_eq_singleton_of_not_mem _ _ hnosep]
    cases hy : jsSplit '\n' c₂ with
    | nil => exact absurd hy (jsSplit_ne_nil _ _)
    | cons b u =>
      rw [glueSplits_eq_append _ _ hp1 (by simp)]
      rfl
  simp only [sseChunkLoop]
  rw [hbuf, hparts, List.dropLast_append_of_ne_nil _ hp2,
    getLast?_append_of_ne_nil _ _ hp2,
    sseRunLines_append step ((jsSplit '\n' (buffer ++ c₁)).dropLast)
      ((jsSplit '\n' ((jsSplit '\n' (buffer ++ c₁)).getLast hp1 ++ c₂)).dropLast)]
  cases hs1 : (sseRunLines step (jsSplit '\n' (buffer ++ c₁)).dropLast).2 with
  | true => simp [hs1]
  | false =>
    cases hs2 : (sseRunLines step
        (jsSplit '\n' ((jsSplit '\n' (buffer ++ c₁)).getLast hp1 ++ c₂)).dropLast).2 with
    | true => simp [hs1, hs2]
    | false => simp [hs1, hs2, List.append_assoc]

/-! ### Claim theorem: OpenAI decoder chunk-splitting robustness -/

/-- **C6.** For every payload parse function, every decoded byte sequence
and every position at which it is split into two chunks — including
positions in the middle of a JSON payload line — feeding
`OpenAIProvider.processStream` the two chunks in order yields exactly the
same event sequence (in particular the same `Content` delta events) as
feeding the whole sequence as one chunk. -/
theorem openai_processStream_chunk_split_invariant
    (parse : JSString → Option JSString) (s : JSString) (i : Nat) :
    OpenAIProvider.processStream parse [s.take i, s.drop i]
      = OpenAIProvider.processStream parse [s] := by
  unfold OpenAIProvider.processStream
  rw [sseChunkLoop_merge, List.take_append_drop]

/-! ### Event-sequence shape of the decoders -/

/-- The shape every per-line step satisfies: the events of one line are
zero or more `delta`s, with a final `done` exactly when the step stops the
generator. -/
def StepShape (step : JSString → List StreamEvent × Bool) : Prop :=
  ∀ line, ∃ ds : List StreamEvent,
    (∀ e ∈ ds, e.isTerminal = false)
    ∧ (step line).1 = ds ++ (if (step line).2 then [StreamEvent.done] else [])

theorem openai_lineStep_shape (parse : JSString → Option JSString) :
    StepShape (OpenAIProvider.lineStep parse) := by
  intro line
  unfold OpenAIProvider.lineStep
  by_cases hp : (jsStr "data: ").isPrefixOf line
  · rw [if_pos hp]
    by_cases hd : jsTrim (line.drop 6) = jsStr "[DONE]"
    · rw [if_pos hd]
      exact ⟨[], by simp, rfl⟩
    · rw [if_neg hd]
      cases hparse : parse (jsTrim (line.drop 6)) with
      | none => exact ⟨[], by simp, rfl⟩
      | some d =>
        by_cases hde : d = []
        · exact ⟨[], by simp, by simp [hde]⟩
        · exact ⟨[.delta d], by simp [StreamEvent.isTerminal], by simp [hde]⟩
  · rw [if_neg hp]
    exact ⟨[], by simp, rfl⟩

theorem anthropic_lineStep_shape (parse : JSString → Option AnthropicProvider.AnthropicParsed) :
    StepShape (AnthropicProvider.lineStep parse) := by
  intro line
  unfold AnthropicProvider.lineStep
  by_cases hp : (jsStr "data: ").isPrefixOf line
  · rw [if_pos hp]
    by_cases hd : jsTrim (line.drop 6) = jsStr "[DONE]"
    · rw [if_pos hd]
      exact ⟨[], by simp, rfl⟩
    · rw [if_neg hd]
      cases hparse : parse (jsTrim (line.drop 6)) with
      | none => exact ⟨[], by simp, rfl⟩
      | some p =>
        cases p with
        | contentBlockDelta t =>
          cases t with
          | none => exact ⟨[], by simp, rfl⟩
          | some t =>
            by_cases hte : t = []
            · exact ⟨[], by simp, by simp [hte]⟩
            · exact ⟨[.delta t], by simp [StreamEvent.isTerminal], by simp [hte]⟩
        | messageStop => exact ⟨[], by simp, rfl⟩
        | contentBlockStop => exact ⟨[], by simp, rfl⟩
        | error m => exact ⟨[], by simp, rfl⟩
        | other => exact ⟨[], by simp, rfl⟩
  · rw [if_neg hp]
    exact ⟨[], by simp, rfl⟩

theorem gemini_lineStep_shape (parse : JSString → Option GeminiProvider.GeminiParsed) :
    StepShape (GeminiProvider.lineStep parse) := by
  intro line
  unfold GeminiProvider.lineStep
  by_cases ht : jsTrim line = []
  · rw [if_pos ht]
    exact ⟨[], by simp, rfl⟩
  · rw [if_neg ht]
    cases hparse : parse (jsTrim line) with
    | none => exact ⟨[], by simp, rfl⟩
    | some p =>
      refine ⟨match p.text with
        | some t => if t = [] then [] else [StreamEvent.delta t]
        | none => [], ?_, ?_⟩
      · cases htxt : p.text with
        | none => simp
        | some t =>
          by_cases hte : t = []
          · simp [hte]
          · simp [hte, StreamEvent.isTerminal]
      · cases hfin : p.finishReason <;> simp [hfin]

theorem sseRunLines_shape (step : JSString → List StreamEvent × Bool)
    (hstep : StepShape step) (lines : List JSString) :
    ∃ ds : List StreamEvent, (∀ e ∈ ds, e.isTerminal = false)
      ∧ (sseRunLines step lines).1
          = ds ++ (if (sseRunLines step lines).2 then [StreamEvent.done] else []) := by
  induction lines with
  | nil => exact ⟨[], by simp, by simp [sseRunLines]⟩
  | cons line rest ih =>
    obtain ⟨ds₀, hds₀, h₀⟩ := hstep line
    obtain ⟨ds₁, hds₁, h₁⟩ := ih
    simp only [sseRunLines]
    by_cases hs : (step line).2 = true
    · simp only [hs, if_true] at h₀
      refine ⟨ds₀, hds₀, ?_⟩
      simp [hs, h₀]
    · have hs' : (step line).2 = false := by simpa using hs
      simp only [hs', Bool.false_eq_true, if_false] at h₀
      refine ⟨ds₀ ++ ds₁, ?_, ?_⟩
      · intro e he
        rcases List.mem_append.mp he with h | h
        exacts [hds₀ e h, hds₁ e h]
      · simp only [List.append_nil] at h₀
        simp [hs, h₀, h₁, List.append_assoc]

theorem sseChunkLoop_shape (step : JSString → List StreamEvent × Bool)
    (hstep : StepShape step) (emitEnd : Bool) (buffer : JSString)
    (chunks : List JSString) :
    ∃ (ds : List StreamEvent) (t : Bool),
      (∀ e ∈ ds, e.isTerminal = false)
      ∧ sseChunkLoop step emitEnd buffer chunks
          = ds ++ (if t then [StreamEvent.done] else [])
      ∧ (emitEnd = true → t = true) := by
  induction chunks generalizing buffer with
  | nil =>
    refine ⟨[], emitEnd, by simp, ?_, fun h => h⟩
    cases emitEnd <;> simp [sseChunkLoop]
  | cons value rest ih =>
    obtain ⟨ds₀, hds₀, h₀⟩ :=
      sseRunLines_shape step hstep (jsSplit '\n' (buffer ++ value)).dropLast
    simp only [sseChunkLoop]
    by_cases hs : (sseRunLines step (jsSplit '\n' (buffer ++ value)).dropLast).2 = true
    · simp only [hs, if_true] at h₀
      refine ⟨ds₀, true, hds₀, ?_, fun _ => rfl⟩
      simp [hs, h₀]
    · have hs' : (sseRunLines step (jsSplit '\n' (buffer ++ value)).dropLast).2 = false := by
        simpa using hs
      simp only [hs', Bool.false_eq_true, if_false] at h₀
      obtain ⟨ds₁, t₁, hds₁, h₁, ht₁⟩ := ih ((jsSplit '\n' (buffer ++ value)).getLast?.getD [])
      refine ⟨ds₀ ++ ds₁, t₁, ?_, ?_, ht₁⟩
      · intro e he
        rcases List.mem_append.mp he with h | h
        exacts [hds₀ e h, hds₁ e h]
      · simp only [List.append_nil] at h₀
        simp [hs, h₀, h₁, List.append_assoc]

/-! ### Claim theorems: event-sequence ordering (C1) -/

/-- **C1 counterexample.** An input stream that ends without the vendor's
end-of-stream marker produces *zero* terminal events from
`OpenAIProvider.processStream` (the loop `break`s without yielding), not
exactly one as the claim requires. -/
theorem openai_stream_no_terminal_counterexample :
    OpenAIProvider.processStream (fun _ => none) [jsStr "ping\n"] = []
    ∧ (OpenAIProvider.processStream (fun _ => none)
        [jsStr "ping\n"]).countP StreamEvent.isTerminal = 0 := by
  constructor <;> decide

/-- **C1 (amended).** For every parse function and every finite chunk list:
the OpenAI, Azure and Anthropic decoders emit zero or more non-terminal
`Content` events followed by *at most* one terminal event, with no events
after the terminal one — the terminal is missing exactly when the input
ends without the vendor's end-of-stream marker; the Gemini decoder, which
yields `{done: true}` on end of input, emits *exactly* one terminal event,
at the end, as the claim states. -/
theorem processStream_terminal_event_shape :
    (∀ (parse : JSString → Option JSString) (chunks : List JSString),
      ∃ ds : List StreamEvent, (∀ e ∈ ds, e.isTerminal = false)
        ∧ (OpenAIProvider.processStream parse chunks = ds
           ∨ OpenAIProvider.processStream parse chunks = ds ++ [StreamEvent.done]))
    ∧ (∀ (parse : JSString → Option JSString) (chunks : List JSString),
      ∃ ds : List StreamEvent, (∀ e ∈ ds, e.isTerminal = false)
        ∧ (AzureChatProvider.processStream parse chunks = ds
           ∨ AzureChatProvider.processStream parse chunks = ds ++ [StreamEvent.done]))
    ∧ (∀ (parse : JSString → Option AnthropicProvider.AnthropicParsed)
        (chunks : List JSString),
      ∃ ds : List StreamEvent, (∀ e ∈ ds, e.isTerminal = false)
        ∧ (AnthropicProvider.processStream parse chunks = ds
           ∨ AnthropicProvider.processStream parse chunks = ds ++ [StreamEvent.done]))
    ∧ (∀ (parse : JSString → Option GeminiProvider.GeminiParsed)
        (chunks : List JSString),
      ∃ ds : List StreamEvent, (∀ e ∈ ds, e.isTerminal = false)
        ∧ GeminiProvider.processStream parse chunks = ds ++ [StreamEvent.done]) := by
  have hOpenai : ∀ (parse : JSString → Option JSString) (chunks : List JSString),
      ∃ ds : List StreamEvent, (∀ e ∈ ds, e.isTerminal = false)
        ∧ (OpenAIProvider.processStream parse chunks = ds
           ∨ OpenAIProvider.processStream parse chunks = ds ++ [StreamEvent.done]) := by
    intro parse chunks
    obtain ⟨ds, t, hds, heq, _⟩ := sseChunkLoop_shape (OpenAIProvider.lineStep parse)
      (openai_lineStep_shape parse) false [] chunks
    refine ⟨ds, hds, ?_⟩
    cases t with
    | false =>
      left
      simpa using heq
    | true =>
      right
      simpa using heq
  refine ⟨hOpenai, hOpenai, ?_, ?_⟩
  · intro parse chunks
    obtain ⟨ds, t, hds, heq, _⟩ := sseChunkLoop_shape (AnthropicProvider.lineStep parse)
      (anthropic_lineStep_shape parse) false [] chunks
    refine ⟨ds, hds, ?_⟩
    cases t with
    | false =>
      left
      simpa using heq
    | true =>
      right
      simpa using heq
  · intro parse chunks
    obtain ⟨ds, t, hds, heq, ht⟩ := sseChunkLoop_shape (GeminiProvider.lineStep parse)
      (gemini_lineStep_shape parse) true [] chunks
    refine ⟨ds, hds, ?_⟩
    rw [ht rfl] at heq
    simpa using heq

/-- Witness for the amended C1 theorem: the Gemini decoder on the empty
stream emits exactly the terminal event. -/
theorem processStream_terminal_event_shape_witness :
    ∃ ds : List StreamEvent, (∀ e ∈ ds, e.isTerminal = false)
      ∧ GeminiProvider.processStream (fun _ => none) [] = ds ++ [StreamEvent.done] :=
  processStream_terminal_event_shape.2.2.2 (fun _ => none) []

/-! ### Claim theorem: Anthropic `type: error` handling (C2) -/

/-- A concrete model of `JSON.parse` + field navigation for the two
payloads of the C2 failing input: an Anthropic error event and a following
content delta. -/
def anthropicParseExample : JSString → Option AnthropicProvider.AnthropicParsed :=
  fun data =>
    if data = jsStr "\x7b\"type\":\"error\",\"error\":\x7b\"message\":\"boom\"\x7d\x7d" then
      some (.error (some (jsStr "boom")))
    else if data
        = jsStr "\x7b\"type\":\"content_block_delta\",\"delta\":\x7b\"text\":\"hi\"\x7d\x7d" then
      some (.contentBlockDelta (some (jsStr "hi")))
    else none

/-- **C2 (code evaluation at the failing input).** A complete `data: ` line
whose payload has `type: "error"` does *not* terminate the event sequence:
the `throw` in the `error` switch case is caught by the surrounding
`catch (e) { continue }`, so the line is skipped and the decoder keeps
decoding — the following `content_block_delta` line still yields its
`Content` event, and no terminal or error event is emitted at the error
line. -/
theorem anthropic_error_line_skipped :
    AnthropicProvider.processStream anthropicParseExample
        [jsStr "data: \x7b\"type\":\"error\",\"error\":\x7b\"message\":\"boom\"\x7d\x7d\ndata: \x7b\"type\":\"content_block_delta\",\"delta\":\x7b\"text\":\"hi\"\x7d\x7d\n"]
      = [StreamEvent.delta (jsStr "hi")]
    ∧ (AnthropicProvider.processStream anthropicParseExample
        [jsStr "data: \x7b\"type\":\"error\",\"error\":\x7b\"message\":\"boom\"\x7d\x7d\ndata: \x7b\"type\":\"content_block_delta\",\"delta\":\x7b\"text\":\"hi\"\x7d\x7d\n"]).countP
        StreamEvent.isTerminal = 0 := by
  constructor <;> decide

/-! ## Provider method surface and the chat handler's configured check
(`apps/api/chat.js`) -/

/-- The four chat provider classes constructed by `createProvider`. -/
inductive ProviderKind where
  | openai
  | gemini
  | anthropic
  | azureChat
  deriving Repr, DecidableEq

/-- The instance methods `BaseProvider` defines (transcribed from the class
body; the constructor is not a callable member). -/
def baseProviderMethods : List String :=
  ["chat", "filterValidMessages", "formatMessages", "getBaseHeaders",
   "handleError", "createTimeoutController", "validateParams", "debug"]

/-- The instance methods each provider class defines in its own body
(`processStream` is `static` and therefore not reachable through a
constructed instance). -/
def ownProviderMethods : ProviderKind → List String
  | .openai => ["chat", "formatMessages", "validateModel"]
  | .gemini => ["chat", "formatMessages", "validateModel"]
  | .anthropic => ["chat", "formatMessages", "validateModel"]
  | .azureChat => ["chat", "formatMessages", "validateModel"]

/-- The full method surface of a constructed provider instance: its own
methods plus those inherited from `BaseProvider`. -/
def instanceMethods (k : ProviderKind) : List String :=
  ownProviderMethods k ++ baseProviderMethods

/-- The outcome of the `if (!provider.isConfigured())` step of
`exports.handler` in `apps/api/chat.js`. -/
inductive ConfiguredCheckOutcome where
  /-- `isConfigured()` returned a truthy value: the handler proceeds to
  invoke `chat`. -/
  | proceed
  /-- `isConfigured()` returned a falsy value: the handler answers 503. -/
  | notConfigured503
  /-- `provider.isConfigured` is `undefined`, so the call throws
  `TypeError: provider.isConfigured is not a function`; the handler's
  surrounding `try`/`catch` answers the generic 500, never 503. -/
  | typeErrorCaught500
  deriving Repr, DecidableEq

/-- The configured-provider step of the chat handler, as a function of the
constructed provider's method surface and of the boolean the method would
return if it existed. -/
def chatConfiguredCheck (k : ProviderKind) (isConfiguredResult : Bool) :
    ConfiguredCheckOutcome :=
  if (instanceMethods k).contains "isConfigured" then
    (if isConfiguredResult then .proceed else .notConfigured503)
  else .typeErrorCaught500

/-! ### Claim theorem: `isConfigured` (C8) -/

/-- **C8 (code evaluation).** No chat provider class — neither the four
concrete classes nor `BaseProvider` they extend — defines an
`isConfigured` method, yet `apps/api/chat.js` calls
`provider.isConfigured()` before invoking `chat`; the call throws
`TypeError`, which the handler's `catch` converts to the generic 500
response. The 503 branch is unreachable, contradicting the claim that
every provider exposes `isConfigured() → bool` answered with 503 when
false. -/
theorem no_provider_exposes_isConfigured :
    ∀ (k : ProviderKind) (b : Bool),
      (instanceMethods k).contains "isConfigured" = false
      ∧ chatConfiguredCheck k b = ConfiguredCheckOutcome.typeErrorCaught500
      ∧ chatConfiguredCheck k b ≠ ConfiguredCheckOutcome.notConfigured503 := by
  intro k b
  cases k <;> cases b <;> exact ⟨by decide, by decide, by decide⟩
